import Mathlib

/-! The `push` command of the `force` CLI (`push.go`).

A shallow embedding of the resolution-and-packaging pipeline of `push.go`:
the name matcher (`wildCardSearch`, `metadataExists`,
`FilenameMatchesMetadataName`), the type locator (`findMetadataTypeFolder`),
the archiver (`zipResource`), the resolver (`pushByMetadataType`,
`pushByPaths`) and the result interpreter (`processDeployResults`).

Conventions of the embedding.

* A Go `string` is a list of characters (`Str`).
* The file system is an immutable tree (`Node`); a directory lists its
  children in the order `filepath.Walk` visits them.
* Console output (`fmt.Print*`) is not part of the modelled state. The
  message handed to `ErrorAndExit` is.
* Functions of the Go standard library (`regexp`, `strings`,
  `path/filepath`) are modelled after their documented behaviour on Unix.
-/

namespace Push

/-- A Go string. -/
abbrev Str := List Char

/-! ## `regexp`: the fragment used by `FilenameMatchesMetadataName` -/

/-- Regular expressions: the constructs of RE2 syntax that occur in
`\.[^.]+(-meta\.xml)?$`. -/
inductive Re where
  /-- The empty expression. -/
  | eps
  /-- One character of a class, e.g. the literal `\.` or the class `[^.]`. -/
  | cls (p : Char → Bool)
  /-- Concatenation. -/
  | cat (a b : Re)
  /-- Greedy repetition `c+` of a one-character class. -/
  | plusCls (p : Char → Bool)
  /-- Greedy option `a?`. -/
  | opt (a : Re)
  /-- End of text `$` (no multi-line flag). -/
  | eot

/-- The literal string `l` as a regular expression. -/
def Re.str : Str → Re
  | [] => .eps
  | c :: l => .cat (.cls (fun x => x == c)) (Re.str l)

/-- Greedy `c*` followed by the continuation `k`: the longest run is tried
first, shorter runs on failure. -/
def Re.many (p : Char → Bool) : Str → (Str → Option Str) → Option Str
  | [], k => k []
  | c :: t, k => if p c then (Re.many p t k).orElse (fun _ => k (c :: t)) else k (c :: t)

/-- Leftmost-first (Perl-like) matching of `re` at the start of `s`, which
is the match the package `regexp` of Go reports: `k` receives the text left after the
match of `re`; the result is the text left after the whole match. -/
def Re.run : Re → Str → (Str → Option Str) → Option Str
  | .eps, s, k => k s
  | .cls _, [], _ => none
  | .cls p, c :: t, k => if p c then k t else none
  | .cat a b, s, k => a.run s (fun t => b.run t k)
  | .plusCls _, [], _ => none
  | .plusCls p, c :: t, k => if p c then Re.many p t k else none
  | .opt a, s, k => (a.run s k).orElse (fun _ => k s)
  | .eot, s, k => if s.isEmpty then k s else none

/-- The function `(*Regexp).ReplaceAllString(src, repl)` for a replacement
without `$` references: every leftmost non-overlapping match is replaced by
`repl`. The counter is the number of characters of the current match still
to be skipped; the call from outside passes `0`. -/
def ReplaceAllString (re : Re) (repl : Str) : Str → Nat → Str
  | [], _ => []
  | _ :: s, skip + 1 => ReplaceAllString re repl s skip
  | c :: s, 0 =>
    match re.run (c :: s) some with
    | some rest =>
      let width := (c :: s).length - rest.length
      if width = 0 then repl ++ c :: ReplaceAllString re repl s 0
      else repl ++ ReplaceAllString re repl s (width - 1)
    | none => c :: ReplaceAllString re repl s 0

/-- The companion suffix `-meta.xml`. -/
def metaXml : Str := "-meta.xml".toList

/-- The expression `\.[^.]+(-meta\.xml)?$` compiled in
`FilenameMatchesMetadataName`. -/
def extRe : Re :=
  .cat (.cls (fun x => x == '.'))
    (.cat (.plusCls (fun x => x != '.'))
      (.cat (.opt (Re.str metaXml)) .eot))

/-- The function `FilenameMatchesMetadataName` (push.go 280-286). -/
def FilenameMatchesMetadataName (filename metadataName : Str) : Bool :=
  let trimmed := ReplaceAllString extRe [] filename 0
  trimmed == metadataName

/-! ## `strings` and `path/filepath` -/

/-- The Go function `strings.Split(s, sep)` for a separator of one character. -/
def Split (s : Str) (sep : Char) : List Str := s.splitOn sep

/-- The Go function `strings.Join(elems, sep)`. -/
def stringsJoin (elems : List Str) (sep : Str) : Str := sep.intercalate elems

/-- The loop of `strings.Replace(s, old, new, -1)` for a non-empty `old`:
every non-overlapping occurrence of `old`, from the left, becomes `new`. The
counter is the number of characters of the current occurrence still to be
skipped. -/
def replaceGo (old new : Str) : Str → Nat → Str
  | [], _ => []
  | _ :: s, skip + 1 => replaceGo old new s skip
  | c :: s, 0 =>
    if old.isPrefixOf (c :: s) then new ++ replaceGo old new s (old.length - 1)
    else c :: replaceGo old new s 0

/-- The Go function `strings.Replace(s, old, new, -1)`. An empty `old` matches before every
character and at the end. -/
def Replace (s old new : Str) : Str :=
  if old.isEmpty then new ++ s.flatMap (fun c => c :: new) else replaceGo old new s 0

/-- The Go function `strings.ToLower`, on the ASCII letters. (Every use compares the
result with `.ds_store`, whose letters are the lower case of no character
outside ASCII.) -/
def ToLower (s : Str) : Str := s.map Char.toLower

/-- The element loop of `filepath.Clean`: `out` is the stack of elements
kept so far, innermost first. Empty and `.` elements are dropped, `..`
removes the element before it, is dropped at the top of a rooted path and
kept at the start of a relative one. -/
def cleanComps (rooted : Bool) : List Str → List Str → List Str
  | [], out => out.reverse
  | c :: cs, out =>
    if c = [] ∨ c = ['.'] then cleanComps rooted cs out
    else if c = ['.', '.'] then
      match out with
      | top :: rest =>
        if top = ['.', '.'] then cleanComps rooted cs (c :: out)
        else cleanComps rooted cs rest
      | [] => if rooted then cleanComps rooted cs [] else cleanComps rooted cs [c]
    else cleanComps rooted cs (c :: out)

/-- The Go function `filepath.Clean` on Unix. -/
def Clean (path : Str) : Str :=
  if path = [] then ['.']
  else
    let rooted : Bool := path.head? == some '/'
    let out := ['/'].intercalate (cleanComps rooted (path.splitOn '/') [])
    if rooted then '/' :: out else if out = [] then ['.'] else out

/-- The Go function `filepath.Join` of two elements. -/
def Join (a b : Str) : Str :=
  if a ≠ [] then Clean (a ++ '/' :: b) else if b ≠ [] then Clean b else []

/-- The Go function `filepath.Dir`: everything up to the last separator, cleaned. -/
def Dir (path : Str) : Str := Clean (path.rdropWhile (fun c => c != '/'))

/-- The Go function `filepath.Base`: the last element of the path. -/
def Base (path : Str) : Str :=
  if path = [] then ['.']
  else
    let stripped := path.rdropWhile (fun c => c == '/')
    let last := stripped.rtakeWhile (fun c => c != '/')
    if last = [] then ['/'] else last

/-- The Go function `filepath.Abs` with working directory `wd`. -/
def Abs (wd path : Str) : Str :=
  if path.head? = some '/' then Clean path else Join wd path

/-! ## The file system and `filepath.Walk` -/

/-- A file system tree. A file carries its name and what `ioutil.ReadFile`
returns on it (`none`: the read fails); a directory carries its name and its
children in directory-listing order. -/
inductive Node where
  | file (name : Str) (content : Option Str)
  | dir (name : Str) (kids : List Node)

/-- The Go function `os.FileInfo.Name()`. -/
def Node.Name : Node → Str
  | .file n _ => n
  | .dir n _ => n

/-- The Go function `os.FileInfo.IsDir()`. -/
def Node.IsDir : Node → Bool
  | .file _ _ => false
  | .dir _ _ => true

/-- The Go function `ioutil.ReadFile` on the node: it fails on a directory. -/
def ReadFile : Node → Option Str
  | .file _ c => c
  | .dir _ _ => none

mutual
/-- The visits of `filepath.Walk` below `path`, in order: the node itself,
then, for a directory, each child at `filepath.Join(path, name)`. -/
def walk (path : Str) : Node → List (Str × Node)
  | .file n c => [(path, .file n c)]
  | .dir n kids => (path, .dir n kids) :: walkKids path kids
/-- The visits of the children of the directory at `path`. -/
def walkKids (path : Str) : List Node → List (Str × Node)
  | [] => []
  | k :: ks => walk (Join path k.Name) k ++ walkKids path ks
end

/-- Runs the callback of `filepath.Walk` over the visits: the callback
returns the new state and whether it returned an error, and the first error
ends the walk. (No callback of push.go returns `filepath.SkipDir`.) -/
def walkFold {σ : Type} (fn : σ → Str × Node → σ × Bool) : σ → List (Str × Node) → σ
  | st, [] => st
  | st, v :: vs =>
    match fn st v with
    | (st1, true) => st1
    | (st1, false) => walkFold fn st1 vs

/-- The Go function `filepath.Walk(root, fn)` on the tree found at `root`. -/
def Walk {σ : Type} (root : Str) (tree : Node) (fn : σ → Str × Node → σ × Bool) (init : σ) : σ :=
  walkFold fn init (walk root tree)

/-! ## Process exit -/

/-- The message a terminated process was given. -/
structure Exit where
  format : Str
  args : List Str
  deriving DecidableEq, Repr

/-- Modelled from the spec: `ErrorAndExit` is defined outside push.go. Per
the spec an error "is reported, process aborts": the call ends the run with
the format string and arguments it was given. -/
def ErrorAndExit {α : Type} (format : Str) (args : List Str) : Except Exit α :=
  .error ⟨format, args⟩

/-! ## Name matcher -/

/-- The function `wildCardSearch` (push.go 153-172). `ls` is the outcome of running
`ls metaFolder`: its error, or its standard output. -/
def wildCardSearch (ls : Except Str Str) (name : Str) : Except Exit (List Str) :=
  match ls with
  | .error err => ErrorAndExit err []
  | .ok out =>
    let f := Split out '\n'
    .ok (f.filter (fun s => (Split (Base s) '.').headD [] == name))

/-- One iteration of the loop of `metadataExists`. -/
def metadataExistsStep (metaFolder : Str) (ls : Except Str Str) (st : Bool × Str) (name : Str) :
    Except Exit (Bool × Str) :=
  match wildCardSearch ls ((Split name '.').headD []) with
  | .error e => .error e
  | .ok found =>
    if found.length = 0 then
      .ok (false, st.2 ++ "\nINVALID: No resource named ".toList ++ name
        ++ " found in ".toList ++ metaFolder)
    else .ok st

/-- The function `metadataExists` (push.go 128-145). -/
def metadataExists (metadataName : List Str) (metaFolder : Str) (ls : Except Str Str) :
    Except Exit Unit :=
  if metadataName.length = 0 then .ok ()
  else
    match metadataName.foldlM (metadataExistsStep metaFolder ls) (true, []) with
    | .error e => .error e
    | .ok (valid, message) => if !valid then ErrorAndExit message [] else .ok ()

/-! ## Type locator -/

/-- The XML tokenizer of `encoding/xml`, as far as push.go uses it:
`firstStart` is the local name of the first start element `Decoder.Token`
delivers before the input ends or an error stops it. On empty input there is
none. -/
structure XmlDecoder where
  firstStart : Str → Option Str
  eof : firstStart [] = none

/-- The function `getFirstXmlElement` (push.go 204-218). -/
def getFirstXmlElement (dec : XmlDecoder) (xmlFile : Str) : Str :=
  match dec.firstStart xmlFile with
  | some name => name
  | none => []

/-- The function `getMDTypeFromXml` (push.go 197-201), on the node at the path: a failed
read leaves `xmlFile` empty. -/
def getMDTypeFromXml (dec : XmlDecoder) (n : Node) : Str :=
  let xmlFile := (ReadFile n).getD []
  getFirstXmlElement dec xmlFile

/-- The function `findMetadataTypeFolder` (push.go 225-243). -/
def findMetadataTypeFolder (dec : XmlDecoder) (mdtype root : Str) (tree : Node) : Str :=
  Walk root tree (fun folder v =>
    let firstEl := getMDTypeFromXml dec v.2
    if firstEl = mdtype then
      if mdtype = "AuraDefinitionBundle".toList then (Dir (Dir v.1), true)
      else (Dir v.1, true)
    else (folder, false)) []

/-- The function `isValidMetadataType` (push.go 117-126), given the source directory. -/
def isValidMetadataType (dec : XmlDecoder) (metadataType root : Str) (tree : Node) :
    Except Exit Str :=
  let metaFolder := findMetadataTypeFolder dec metadataType root tree
  if metaFolder = [] then
    ErrorAndExit "No folders that contain %s metadata could be found.".toList [metadataType]
  else .ok metaFolder

/-! ## Archiver -/

/-- An entry of a zip archive: its name and its bytes. -/
structure ZipEntry where
  name : Str
  data : Str
  deriving DecidableEq, Repr

/-- A call of `ioutil.WriteFile`: the path and the archive written to it. -/
structure Archive where
  path : Str
  entries : List ZipEntry
  deriving DecidableEq, Repr

/-- The callback of the walk in `zipResource` (push.go 377-396). Writing to
the in-memory zip buffer does not fail, so the two `ErrorAndExit` calls after
`zipper.Create` and `fl.Write` are not reached. -/
def zipStep (startPath topLevelFolder : Str) (entries : List ZipEntry) (v : Str × Node) :
    List ZipEntry × Bool :=
  if ToLower (Base v.1) ≠ ".ds_store".toList then
    if !v.2.IsDir then
      match ReadFile v.2 with
      | none => (entries, true)
      | some file =>
        (entries ++ [⟨Join topLevelFolder (Replace v.1 startPath []), file⟩], false)
    else (entries, false)
  else (entries, false)

/-- The function `zipResource` (push.go 373-402) on the tree found at `path`: the result
is the file written by `ioutil.WriteFile(path+".resource", zipdata, 0644)`. -/
def zipResource (path topLevelFolder : Str) (tree : Node) : Archive :=
  let startPath := path ++ "/".toList
  let entries := Walk path tree (zipStep startPath topLevelFolder) []
  ⟨path ++ ".resource".toList, entries⟩

/-! ## Resolver -/

/-- The state of the walks of `pushByMetadataType`: the archives written so
far, the directories handed to `pushAuraComponentByPath`, and `files`. -/
structure PushState where
  archives : List Archive
  aura : List Str
  files : List Str
  deriving DecidableEq, Repr

/-- The directory name `aura`. -/
def auraName : Str := "aura".toList

/-- The callback of the walk of an `aura` folder (push.go 305-315). -/
def auraStep (wd : Str) (st : PushState) (v : Str × Node) : PushState × Bool :=
  if v.2.Name ≠ auraName ∧ ToLower v.2.Name ≠ ".ds_store".toList ∧ v.2.IsDir then
    ({ st with aura := st.aura ++ [Abs wd v.1] }, false)
  else (st, false)

/-- The callback of the main walk of `pushByMetadataType` (push.go 319-366).
The archive of a directory is read from the tree as it was when the walk
started: the only files written during the walk are the `.resource` files,
each next to a directory visited earlier. -/
def pushStep (metadataName : List Str) (metaFolder : Str) (st : PushState) (v : Str × Node) :
    PushState × Bool :=
  let path := v.1
  let f := v.2
  if f.IsDir ∧ f.Name ≠ auraName ∧ Base (Dir path) ≠ auraName
      ∧ Base (Dir (Dir path)) ≠ auraName then
    if metadataName.length = 0 then
      ({ st with archives := st.archives ++ [zipResource path [] f] }, false)
    else
      (metadataName.foldl (fun s name =>
        let fname := Base path
        if fname = name then { s with archives := s.archives ++ [zipResource path [] f] }
        else s) st, false)
  else if (Dir path ≠ metaFolder ∧ !f.IsDir) ∨ f.Name = auraName then (st, false)
  else if metadataName.length = 0 then ({ st with files := st.files ++ [path] }, false)
  else
    (metadataName.foldl (fun s name =>
      if FilenameMatchesMetadataName (Base path) name then { s with files := s.files ++ [path] }
      else s) st, false)

/-- What `pushByMetadataType` does before it returns or calls
`pushByPaths`. -/
inductive Resolved where
  /-- The `aura` branch: the bundle directories pushed one by one. -/
  | bundles (st : PushState)
  /-- The general branch: `st.files` is handed to `pushByPaths`. -/
  | selection (st : PushState)
  deriving DecidableEq, Repr

/-- The function `pushByMetadataType` (push.go 293-370) up to the call of `pushByPaths`,
on the tree found at `metaFolder`, in working directory `wd`. -/
def pushByMetadataType (wd : Str) (metadataName : List Str) (metaFolder : Str) (tree : Node) :
    Resolved :=
  if Base metaFolder = auraName then
    .bundles (Walk metaFolder tree (auraStep wd) ⟨[], [], []⟩)
  else
    .selection (Walk metaFolder tree (pushStep metadataName metaFolder) ⟨[], [], []⟩)

/-- The package builder (`NewPushBuilder`, `AddFile`, `ForceMetadataFiles`),
defined outside push.go: `AddFile` returns the new builder and either the
error or the logical name of the file. -/
structure PushBuilder (PB Files : Type) where
  NewPushBuilder : PB
  AddFile : PB → Str → PB × Except Str Str
  ForceMetadataFiles : PB → Files

/-- The state of the loop of `pushByPaths`. -/
structure PathsState (PB : Type) where
  pb : PB
  badPaths : List Str
  namePaths : List (Str × Str)

/-- One iteration of the loop of `pushByPaths` (push.go 465-475). -/
def pathsStep {PB Files : Type} (B : PushBuilder PB Files) (st : PathsState PB) (fpath : Str) :
    PathsState PB :=
  match B.AddFile st.pb fpath with
  | (pb1, .error _) => { st with pb := pb1, badPaths := st.badPaths ++ [fpath] }
  | (pb1, .ok name) => { st with pb := pb1, namePaths := (name, fpath) :: st.namePaths }

/-- The function `pushByPaths` (push.go 461-486) up to the call of `deployFiles`: either
the process exits, or `deployFiles` receives the files of the builder (and
the name index is as returned). -/
def pushByPaths {PB Files : Type} (B : PushBuilder PB Files) (namePaths : List (Str × Str))
    (fpaths : List Str) : Except Exit (Files × List (Str × Str)) :=
  let st := fpaths.foldl (pathsStep B) ⟨B.NewPushBuilder, [], namePaths⟩
  if st.badPaths.length = 0 then .ok (B.ForceMetadataFiles st.pb, st.namePaths)
  else
    ErrorAndExit "Could not add the following files:\n \x7b\x7d".toList
      [stringsJoin st.badPaths "\n".toList]

/-! ## Result interpreter -/

/-- A component failure of a deployment result. -/
structure ComponentFailure where
  FullName : Str
  LineNumber : Int
  ProblemType : Str
  Problem : Str

/-- A component success of a deployment result. -/
structure ComponentSuccess where
  FullName : Str
  Changed : Bool
  Deleted : Bool
  Created : Bool

/-- A failed test. -/
structure TestFailure where
  Name : Str
  MethodName : Str
  Message : Str
  StackTrace : Str

/-- A passed test. -/
structure TestSuccess where
  Name : Str
  MethodName : Str

/-- The field `RunTestResult` of the details. -/
structure RunTestResult where
  TestFailures : List TestFailure
  TestSuccesses : List TestSuccess

/-- The field `Details` of the result. -/
structure DeployDetails where
  ComponentFailures : List ComponentFailure
  ComponentSuccesses : List ComponentSuccess
  RunTestResult : RunTestResult

/-- The type `ForceCheckDeploymentStatusResult`, with the fields push.go reads. -/
structure ForceCheckDeploymentStatusResult where
  Details : DeployDetails

/-- What `processDeployResults` does when it returns: the flag passed to
`notifySuccess("push", flag)` and the error returned. -/
structure Verdict where
  notified : Bool
  err : Option Str
  deriving DecidableEq, Repr

/-- The function `processDeployResults` (push.go 533-598). -/
def processDeployResults (result : ForceCheckDeploymentStatusResult) (deployErr : Option Str) :
    Except Exit Verdict :=
  match deployErr with
  | some e => ErrorAndExit e []
  | none =>
    let problems := result.Details.ComponentFailures
    let testFailures := result.Details.RunTestResult.TestFailures
    let notified : Bool := problems.length == 0
    let err : Option Str :=
      if problems.length > 0 then some "Some components failed deployment".toList
      else if testFailures.length > 0 then some "Some tests failed".toList
      else none
    .ok ⟨notified, err⟩

/-! ## Auxiliary predicates of the proofs -/

/-- The continuation of `[^.]+` in `extRe`, in closed form. -/
def tailK (t : Str) : Option Str := if t = [] ∨ t = metaXml then some [] else none

/-- The text after the first character of `[^.]+` in a match of `extRe`. -/
def IsTail (t : Str) : Prop := ∃ w : Str, '.' ∉ w ∧ (t = w ∨ t = w ++ metaXml)

/-- A match of `extRe` at the start of `s`. -/
def IsExt (s : Str) : Prop :=
  ∃ w : Str, w ≠ [] ∧ '.' ∉ w ∧ (s = '.' :: w ∨ s = '.' :: (w ++ metaXml))

/-- The paths `AddFile` rejects when the builder, in state `pb`, is given
the paths one after the other. -/
def rejectedPaths {PB Files : Type} (B : PushBuilder PB Files) : PB → List Str → List Str
  | _, [] => []
  | pb, p :: ps =>
    match B.AddFile pb p with
    | (pb1, .error _) => p :: rejectedPaths B pb1 ps
    | (pb1, .ok _) => rejectedPaths B pb1 ps

/-- Whether `AddFile` accepts every path, the builder starting in state
`pb`. -/
def acceptsAll {PB Files : Type} (B : PushBuilder PB Files) : PB → List Str → Bool
  | _, [] => true
  | pb, p :: ps =>
    match B.AddFile pb p with
    | (_, .error _) => false
    | (pb1, .ok _) => acceptsAll B pb1 ps

/-- The standard output of `ls` on a directory with the given entries: one
name per line. -/
def lsOutput (names : List Str) : Str := names.flatMap (fun n => n ++ ['\n'])

/-- A name `ls` prints on a line of its own: not empty, without a newline or
a separator. -/
def IsEntryName (n : Str) : Prop := n ≠ [] ∧ '\n' ∉ n ∧ '/' ∉ n

/-- The part of `s` before its first `.`. -/
def firstSeg (s : Str) : Str := s.takeWhile (fun c => c != '.')

/-- The names for which the loop of `metadataExists` finds an empty search
result on the listing `kids`, as the proofs compute them. -/
def missingNames (kids names : List Str) : List Str :=
  names.filter (fun n => firstSeg n != [] && !kids.any (fun k => firstSeg k == firstSeg n))

/-- The requested names without a match in the folder: those whose part
before the first `.` is the part before the first `.` of no entry of the
folder. -/
def unmatchedNames (kids names : List Str) : List Str :=
  names.filter (fun n => !kids.any (fun k => firstSeg k == firstSeg n))

/-- The line of the message of `metadataExists` for the name `n`. -/
def invalidLine (metaFolder n : Str) : Str :=
  "\nINVALID: No resource named ".toList ++ n ++ " found in ".toList ++ metaFolder

/-! ## Well-formed paths and trees -/

/-- An element of a path, as a directory lists it: not empty, without a
separator, and neither `.` nor `..`. -/
def IsName (n : Str) : Prop := n ≠ [] ∧ '/' ∉ n ∧ n ≠ ['.'] ∧ n ≠ ['.', '.']

instance (n : Str) : Decidable (IsName n) := by
  unfold IsName
  exact inferInstance

/-- The absolute path with the elements `cs`. -/
def absPath (cs : List Str) : Str := '/' :: ['/'].intercalate cs

mutual
/-- Below the node every entry has a proper name and no directory is named
`aura`. -/
def Node.Tidy : Node → Prop
  | .file _ _ => True
  | .dir _ kids => TidyKids kids
/-- The entries of a directory, and everything below them, have proper names
and no directory among them is named `aura`. -/
def TidyKids : List Node → Prop
  | [] => True
  | k :: ks => IsName k.Name ∧ (k.IsDir = true → k.Name ≠ auraName) ∧ k.Tidy ∧ TidyKids ks
end

/-- What the callback `pushStep` appends to `files` at a visit. -/
def selected (metadataName : List Str) (metaFolder : Str) (v : Str × Node) : List Str :=
  if v.2.IsDir ∧ v.2.Name ≠ auraName ∧ Base (Dir v.1) ≠ auraName
      ∧ Base (Dir (Dir v.1)) ≠ auraName then []
  else if (Dir v.1 ≠ metaFolder ∧ !v.2.IsDir) ∨ v.2.Name = auraName then []
  else if metadataName.length = 0 then [v.1]
  else (metadataName.filter (fun m => FilenameMatchesMetadataName (Base v.1) m)).map
    (fun _ => v.1)

/-! ## Example trees -/

/-- The directory `/s/r` holding `x/s/r/c` and `xc`. -/
def nestedRootTree : Node :=
  .dir "r".toList
    [.dir "x".toList [.dir "s".toList [.dir "r".toList [.file "c".toList (some "1".toList)]]],
     .file "xc".toList (some "2".toList)]

/-- The folder `staticresources` holding the file `Logo.resource` and the
directory `Widgets` with two files. -/
def staticResourcesTree : Node :=
  .dir "staticresources".toList
    [.file "Logo.resource".toList (some "L".toList),
     .dir "Widgets".toList
       [.file "a.js".toList (some "A".toList), .file "b.css".toList (some "B".toList)]]

/-- The directory `Widgets` whose second file cannot be read. -/
def unreadableWidgets : Node :=
  .dir "Widgets".toList
    [.file "a.js".toList (some "A".toList), .file "b.css".toList none,
     .file "c.txt".toList (some "C".toList)]

/-- The folder `staticresources` holding `unreadableWidgets` and the archive
of an earlier run. -/
def unreadableTree : Node :=
  .dir "staticresources".toList
    [unreadableWidgets, .file "Widgets.resource".toList (some "old".toList)]

/-- The entries of the folder `classes` of the scenario: `Bar.cls`, `Foo.cls`
and the companion file of `Foo.cls`. -/
def apexClassKids : List Node :=
  [.file "Bar.cls".toList (some "c".toList), .file "Foo.cls".toList (some "a".toList),
   .file "Foo.cls-meta.xml".toList (some "b".toList)]

/-! ## Example deployment results -/

/-- A deployment result with one component success, no component failure
and one failed test. -/
def failedTestResult : ForceCheckDeploymentStatusResult :=
  ⟨⟨[], [⟨"MyClass".toList, true, false, false⟩],
    ⟨[⟨"MyClass_Test".toList, "testIt".toList, "Assertion failed".toList, [] ⟩], []⟩⟩⟩

/-! ## `FilenameMatchesMetadataName` -/

theorem str_run (l : Str) : ∀ (s : Str) (k : Str → Option Str),
    (Re.str l).run s k = if l.isPrefixOf s then k (s.drop l.length) else none := by
  induction l with
  | nil => intro s k; simp [Re.str, Re.run]
  | cons c l ih =>
    intro s k
    cases s with
    | nil => simp [Re.str, Re.run]
    | cons d s =>
      simp only [Re.str, Re.run, ih, List.isPrefixOf, List.length_cons, List.drop_succ_cons]
      by_cases h : d = c
      · subst h; simp
      · have h2 : ¬ c = d := fun e => h e.symm
        simp [h, h2]

theorem optStr_eot_run (l t : Str) (hl : l ≠ []) :
    (Re.cat (Re.opt (Re.str l)) Re.eot).run t some
      = if t = [] ∨ t = l then some [] else none := by
  simp only [Re.run, str_run]
  by_cases h1 : t = []
  · subst h1
    have : l.isPrefixOf [] = false := by cases l <;> simp_all
    simp [this]
  · by_cases h2 : t = l
    · subst h2; simp
    · simp only [h1, h2, or_self, if_false]
      have h3 : t.isEmpty = false := by cases t <;> simp_all
      by_cases h4 : l.isPrefixOf t = true
      · simp only [h4, if_true]
        have h5 : (List.drop l.length t).isEmpty = false := by
          rw [List.isPrefixOf_iff_prefix] at h4
          obtain ⟨u, rfl⟩ := h4
          cases u with
          | nil => simp at h2
          | cons a u => simp
        simp [h5, h3]
      · simp [h4, h3]

theorem tailK_eq : (fun t : Str => (Re.cat (Re.opt (Re.str metaXml)) Re.eot).run t some) = tailK := by
  funext t
  exact optStr_eot_run metaXml t (by decide)

theorem many_tail (t : Str) :
    (Re.many (fun x => x != '.') t tailK = some [] ∧ IsTail t)
    ∨ (Re.many (fun x => x != '.') t tailK = none ∧ ¬ IsTail t) := by
  induction t with
  | nil =>
    left
    exact ⟨by simp [Re.many, tailK], [], by simp, Or.inl rfl⟩
  | cons c t ih =>
    simp only [Re.many]
    by_cases hc : c = '.'
    · subst hc
      right
      have hne : ¬ ('.' :: t = metaXml) := by
        intro h; rw [metaXml] at h; simp at h
      refine ⟨by simp [tailK, hne], ?_⟩
      rintro ⟨w, hw, h | h⟩
      · subst h; simp at hw
      · cases w with
        | nil => exact hne (by simpa using h)
        | cons a w => simp at h; simp [← h.1] at hw
    · have hc2 : (c != '.') = true := by simp [hc]
      simp only [hc2, if_true]
      rcases ih with ⟨h1, w, hw, h2⟩ | ⟨h1, h2⟩
      · left
        refine ⟨by simp [h1], c :: w, by simp [hw, Ne.symm hc], ?_⟩
        rcases h2 with h2 | h2
        · left; simp [h2]
        · right; simp [h2]
      · rw [h1]
        by_cases h3 : c :: t = metaXml
        · left
          refine ⟨by simp [tailK, h3], [], by simp, Or.inr (by simp [h3])⟩
        · right
          refine ⟨by simp [tailK, h3], ?_⟩
          rintro ⟨w, hw, h | h⟩
          · cases w with
            | nil => simp at h
            | cons a w =>
              simp at h
              apply h2
              exact ⟨w, by simp at hw; tauto, Or.inl h.2⟩
          · cases w with
            | nil => exact h3 (by simpa using h)
            | cons a w =>
              simp at h
              apply h2
              exact ⟨w, by simp at hw; tauto, Or.inr h.2⟩

theorem isExt_cons_cons (c d : Char) (u : Str) :
    IsExt (c :: d :: u) ↔ c = '.' ∧ d ≠ '.' ∧ IsTail u := by
  constructor
  · rintro ⟨w, hw, hdot, h | h⟩
    · cases w with
      | nil => exact absurd rfl hw
      | cons a w =>
        simp at h hdot
        obtain ⟨h1, h2, h3⟩ := h
        subst h1 h2 h3
        exact ⟨rfl, fun e => hdot.1 e.symm, u, hdot.2, Or.inl rfl⟩
    · cases w with
      | nil => exact absurd rfl hw
      | cons a w =>
        simp at h hdot
        obtain ⟨h1, h2, h3⟩ := h
        subst h1 h2 h3
        exact ⟨rfl, fun e => hdot.1 e.symm, w, hdot.2, Or.inr rfl⟩
  · rintro ⟨h1, h2, w, hw, h | h⟩
    · subst h1 h
      exact ⟨d :: u, by simp, by simp [hw, Ne.symm h2], Or.inl rfl⟩
    · subst h1 h
      exact ⟨d :: w, by simp, by simp [hw, Ne.symm h2], Or.inr rfl⟩

theorem head_run (p q : Char → Bool) (r : Re) (c d : Char) (u : Str) :
    (Re.cat (Re.cls p) (Re.cat (Re.plusCls q) r)).run (c :: d :: u) some
      = if p c then (if q d then Re.many q u (fun t => r.run t some) else none) else none := by
  simp only [Re.run]

theorem head_run_short (p q : Char → Bool) (r : Re) (s : Str) (h : s.length ≤ 1) :
    (Re.cat (Re.cls p) (Re.cat (Re.plusCls q) r)).run s some = none := by
  match s, h with
  | [], _ => simp only [Re.run]
  | [c], _ => simp only [Re.run]; split <;> rfl

theorem extRe_run (s : Str) :
    (extRe.run s some = some [] ∧ IsExt s) ∨ (extRe.run s some = none ∧ ¬ IsExt s) := by
  unfold extRe
  cases s with
  | nil =>
    right
    refine ⟨head_run_short _ _ _ _ (by simp), ?_⟩
    rintro ⟨w, _, _, h | h⟩ <;> simp at h
  | cons c t =>
    cases t with
    | nil =>
      right
      refine ⟨head_run_short _ _ _ _ (by simp), ?_⟩
      rintro ⟨w, hw, _, h | h⟩
      · simp at h; exact hw h.2
      · simp at h; exact hw h.2.1
    | cons d u =>
      rw [head_run, tailK_eq, isExt_cons_cons]
      by_cases hc : c = '.'
      · by_cases hd : d = '.'
        · right; simp [hc, hd]
        · have hd2 : (d != '.') = true := by simp [hd]
          simp only [hc, hd2, beq_self_eq_true, if_true, true_and, ne_eq, hd, not_false_eq_true]
          exact many_tail u
      · right; simp [hc]

theorem ReplaceAllString_skip (re : Re) (repl : Str) :
    ∀ (s : Str) (n : Nat), s.length ≤ n → ReplaceAllString re repl s n = [] := by
  intro s
  induction s with
  | nil => intro n _; cases n <;> simp [ReplaceAllString]
  | cons c s ih =>
    intro n hn
    cases n with
    | zero => simp at hn
    | succ n =>
      simp only [ReplaceAllString]
      exact ih n (by simpa using hn)

theorem trim_match (s : Str) (h : IsExt s) : ReplaceAllString extRe [] s 0 = [] := by
  cases s with
  | nil => rfl
  | cons c s =>
    rcases extRe_run (c :: s) with ⟨h1, _⟩ | ⟨_, h2⟩
    · simp only [ReplaceAllString, h1]
      simp [ReplaceAllString_skip]
    · exact absurd h h2

theorem trim_nomatch (c : Char) (s : Str) (h : ¬ IsExt (c :: s)) :
    ReplaceAllString extRe [] (c :: s) 0 = c :: ReplaceAllString extRe [] s 0 := by
  rcases extRe_run (c :: s) with ⟨_, h2⟩ | ⟨h1, _⟩
  · exact absurd h2 h
  · simp only [ReplaceAllString, h1]

/-- The leftmost match decides: if `y` matches and no earlier position
does, the trimmed text is what precedes `y`. -/
theorem trim_append (x y : Str) (hy : IsExt y)
    (hx : ∀ a b : Str, x = a ++ b → b ≠ [] → ¬ IsExt (b ++ y)) :
    ReplaceAllString extRe [] (x ++ y) 0 = x := by
  induction x with
  | nil => simpa using trim_match y hy
  | cons c x ih =>
    have h0 : ¬ IsExt (c :: (x ++ y)) := hx [] (c :: x) rfl (by simp)
    rw [List.cons_append, trim_nomatch c _ h0, ih]
    intro a b hab hb
    exact hx (c :: a) b (by simp [hab]) hb

/-- The trimmed text is never longer than what precedes a match. -/
theorem trim_length_le (x y : Str) (hy : IsExt y) :
    (ReplaceAllString extRe [] (x ++ y) 0).length ≤ x.length := by
  induction x with
  | nil => simp [trim_match y hy]
  | cons c x ih =>
    by_cases h0 : IsExt (c :: (x ++ y))
    · rw [List.cons_append, trim_match _ h0]; simp
    · rw [List.cons_append, trim_nomatch c _ h0]; simpa using ih

theorem split_at_last (c : Char) : ∀ (a a2 b b2 : Str), a ++ c :: b = a2 ++ c :: b2 →
    c ∉ b → c ∉ b2 → a = a2 ∧ b = b2 := by
  intro a
  induction a with
  | nil =>
    intro a2 b b2 h hb hb2
    cases a2 with
    | nil => simpa using h
    | cons y a2 =>
      simp at h
      exact absurd (by simp [h.2]) hb
  | cons x a ih =>
    intro a2 b b2 h hb hb2
    cases a2 with
    | nil =>
      simp at h
      exact absurd (by simp [← h.2]) hb2
    | cons y a2 =>
      simp at h
      obtain ⟨h1, h2⟩ := ih a2 b b2 h.2 hb hb2
      exact ⟨by simp [h.1, h1], h2⟩

theorem no_match_before_sidecar (b ext : Str) (hb : b ≠ []) :
    ¬ IsExt (b ++ '.' :: (ext ++ metaXml)) := by
  rintro ⟨w, _, hdot, h | h⟩
  · cases b with
    | nil => exact hb rfl
    | cons b0 b =>
      simp at h
      exact hdot (by simp [← h.2])
  · cases b with
    | nil => exact hb rfl
    | cons b0 b =>
      simp at h
      have h2 : (b ++ '.' :: ext) ++ metaXml = w ++ metaXml := by simpa using h.2
      have h3 := List.append_cancel_right h2
      exact hdot (by simp [← h3])

theorem match_before_ext (b ext : Str) (hb : b ≠ []) (hext : '.' ∉ ext)
    (h : IsExt (b ++ '.' :: ext)) :
    ext = "xml".toList ∧ ∃ w : Str, w ≠ [] ∧ '.' ∉ w ∧ b = '.' :: w ++ "-meta".toList := by
  obtain ⟨w, hw, hdot, h | h⟩ := h
  · cases b with
    | nil => exact absurd rfl hb
    | cons b0 b =>
      simp at h
      exact absurd (by simp [← h.2]) hdot
  · cases b with
    | nil => exact absurd rfl hb
    | cons b0 b =>
      simp at h
      have h2 : b ++ '.' :: ext = (w ++ "-meta".toList) ++ '.' :: "xml".toList := by
        rw [h.2]; simp [metaXml]
      obtain ⟨h3, h4⟩ := split_at_last '.' _ _ _ _ h2 hext (by decide)
      exact ⟨h4, w, hw, hdot, by simp [h.1, h3]⟩

/-- C1 (as stated, at `X = "a.b-meta"`, `ext = "xml"`): the extension is
non-empty and has no dot, yet `a.b-meta.xml` does not match `a.b-meta`: the
expression takes `.b-meta.xml` for an extension with its companion suffix. -/
theorem FilenameMatchesMetadataName_dotted_meta_counterexample :
    "xml".toList ≠ [] ∧ '.' ∉ "xml".toList ∧
    FilenameMatchesMetadataName ("a.b-meta".toList ++ '.' :: "xml".toList) "a.b-meta".toList
      = false := by
  decide

/-- C1 (amended): for a non-empty extension without a dot, `X.ext-meta.xml`
always matches `X`, and `X.ext` matches `X` unless `ext` is `xml` and `X`
ends in `.w-meta` for a non-empty dot-free `w`. -/
theorem FilenameMatchesMetadataName_strips_extension (X ext : Str)
    (hne : ext ≠ []) (hdot : '.' ∉ ext) :
    FilenameMatchesMetadataName (X ++ '.' :: ext ++ metaXml) X = true ∧
    (FilenameMatchesMetadataName (X ++ '.' :: ext) X = true ↔
      ¬ (ext = "xml".toList ∧
          ∃ P w : Str, w ≠ [] ∧ '.' ∉ w ∧ X = P ++ '.' :: w ++ "-meta".toList)) := by
  constructor
  · have h := trim_append X ('.' :: (ext ++ metaXml)) ⟨ext, hne, hdot, Or.inr rfl⟩
      (fun a b _ hb => no_match_before_sidecar b ext hb)
    have e : X ++ '.' :: ext ++ metaXml = X ++ '.' :: (ext ++ metaXml) := by simp
    simp [FilenameMatchesMetadataName, e, h]
  · constructor
    · rintro hm ⟨hx, P, w, hw, hwd, hX⟩
      have e : X ++ '.' :: ext = P ++ '.' :: (w ++ metaXml) := by
        rw [hX, hx]; simp [metaXml]
      have hl := trim_length_le P ('.' :: (w ++ metaXml)) ⟨w, hw, hwd, Or.inr rfl⟩
      simp only [FilenameMatchesMetadataName, beq_iff_eq] at hm
      rw [← e, hm, hX] at hl
      simp at hl
    · intro hn
      have h := trim_append X ('.' :: ext) ⟨ext, hne, hdot, Or.inl rfl⟩ (by
        intro a b hab hb hm
        obtain ⟨h1, w, hw, hwd, h2⟩ := match_before_ext b ext hb hdot hm
        exact hn ⟨h1, a, w, hw, hwd, by rw [hab, h2]; simp⟩)
      simp [FilenameMatchesMetadataName, h]

/-- Witness for C1: `Foo.cls` and `Foo.cls-meta.xml` against `Foo`. -/
theorem FilenameMatchesMetadataName_strips_extension_witness :
    FilenameMatchesMetadataName ("Foo".toList ++ '.' :: "cls".toList ++ metaXml) "Foo".toList
      = true ∧
    (FilenameMatchesMetadataName ("Foo".toList ++ '.' :: "cls".toList) "Foo".toList = true ↔
      ¬ ("cls".toList = "xml".toList ∧
          ∃ P w : Str, w ≠ [] ∧ '.' ∉ w ∧ "Foo".toList = P ++ '.' :: w ++ "-meta".toList)) :=
  FilenameMatchesMetadataName_strips_extension "Foo".toList "cls".toList (by decide) (by decide)

/-! ## `processDeployResults` -/

/-- C2: without a transport error `processDeployResults` returns, and it
returns an error exactly when there is a component failure or a test
failure; replacing the lists of successes changes nothing. -/
theorem processDeployResults_verdict (fails : List ComponentFailure)
    (succ succ2 : List ComponentSuccess) (tf : List TestFailure) (ts ts2 : List TestSuccess) :
    (∃ v : Verdict, processDeployResults ⟨⟨fails, succ, ⟨tf, ts⟩⟩⟩ none = .ok v ∧
      (v.err ≠ none ↔ (0 < fails.length ∨ 0 < tf.length))) ∧
    processDeployResults ⟨⟨fails, succ, ⟨tf, ts⟩⟩⟩ none
      = processDeployResults ⟨⟨fails, succ2, ⟨tf, ts2⟩⟩⟩ none := by
  refine ⟨⟨_, rfl, ?_⟩, rfl⟩
  by_cases h1 : 0 < fails.length
  · simp [h1]
  · by_cases h2 : 0 < tf.length
    · simp [h1, h2]
    · simp [h1, h2]

/-! ## `pushByPaths` -/

theorem pathsStep_foldl {PB Files : Type} (B : PushBuilder PB Files) :
    ∀ (fpaths : List Str) (st : PathsState PB),
      (fpaths.foldl (pathsStep B) st).badPaths = st.badPaths ++ rejectedPaths B st.pb fpaths := by
  intro fpaths
  induction fpaths with
  | nil => intro st; simp [rejectedPaths]
  | cons p ps ih =>
    intro st
    rw [List.foldl_cons, ih]
    unfold pathsStep
    rw [rejectedPaths]
    rcases h : B.AddFile st.pb p with ⟨pb1, r⟩
    cases r <;> simp

theorem rejectedPaths_nil_iff {PB Files : Type} (B : PushBuilder PB Files) :
    ∀ (fpaths : List Str) (pb : PB), rejectedPaths B pb fpaths = [] ↔ acceptsAll B pb fpaths = true := by
  intro fpaths
  induction fpaths with
  | nil => intro pb; simp [rejectedPaths, acceptsAll]
  | cons p ps ih =>
    intro pb
    rw [rejectedPaths, acceptsAll]
    rcases h : B.AddFile pb p with ⟨pb1, r⟩
    cases r with
    | error e => simp
    | ok a => simpa using ih pb1

theorem rejectedPaths_sublist {PB Files : Type} (B : PushBuilder PB Files) :
    ∀ (fpaths : List Str) (pb : PB), (rejectedPaths B pb fpaths).Sublist fpaths := by
  intro fpaths
  induction fpaths with
  | nil => intro pb; simp [rejectedPaths]
  | cons p ps ih =>
    intro pb
    rw [rejectedPaths]
    rcases h : B.AddFile pb p with ⟨pb1, r⟩
    cases r with
    | error e => exact (ih pb1).cons₂ p
    | ok a => exact (ih pb1).cons p

/-- C10: `pushByPaths` reaches `deployFiles` exactly when `AddFile` accepted
every path; otherwise the process exits and the message carries the rejected
paths, a sublist of the input in input order, joined by newlines. -/
theorem pushByPaths_all_or_nothing {PB Files : Type} (B : PushBuilder PB Files)
    (namePaths : List (Str × Str)) (fpaths : List Str) :
    ((acceptsAll B B.NewPushBuilder fpaths = true ∧
        ∃ r, pushByPaths B namePaths fpaths = .ok r) ∨
      (acceptsAll B B.NewPushBuilder fpaths = false ∧
        pushByPaths B namePaths fpaths
          = .error ⟨"Could not add the following files:\n \x7b\x7d".toList,
              [stringsJoin (rejectedPaths B B.NewPushBuilder fpaths) "\n".toList]⟩)) ∧
    (rejectedPaths B B.NewPushBuilder fpaths).Sublist fpaths := by
  refine ⟨?_, rejectedPaths_sublist B fpaths _⟩
  have hb := pathsStep_foldl B fpaths ⟨B.NewPushBuilder, [], namePaths⟩
  simp only [List.nil_append] at hb
  have hiff := rejectedPaths_nil_iff B fpaths B.NewPushBuilder
  by_cases h : acceptsAll B B.NewPushBuilder fpaths = true
  · left
    refine ⟨h, ?_⟩
    have h0 := hiff.2 h
    unfold pushByPaths
    simp only [hb, h0, List.length_nil, if_true]
    exact ⟨_, rfl⟩
  · right
    have hne : rejectedPaths B B.NewPushBuilder fpaths ≠ [] := fun e => h (hiff.1 e)
    refine ⟨by simpa using h, ?_⟩
    unfold pushByPaths
    have hl : ¬ (rejectedPaths B B.NewPushBuilder fpaths).length = 0 := by
      simpa [List.length_eq_zero] using hne
    simp only [hb, hl, if_false, ErrorAndExit]

/-! ## `wildCardSearch` and `metadataExists` -/

theorem Split_lsOutput (kids : List Str) (hk : ∀ k ∈ kids, '\n' ∉ k) :
    Split (lsOutput kids) '\n' = kids ++ [[]] := by
  induction kids with
  | nil => rfl
  | cons k ks ih =>
    have h1 : ∀ x ∈ k, ¬ (x == '\n') = true := by
      intro x hx e
      have : x = '\n' := by simpa using e
      exact hk k (by simp) (this ▸ hx)
    have h2 := List.splitOnP_first (fun x => x == '\n') k h1 '\n' (by simp) (lsOutput ks)
    have h3 : lsOutput (k :: ks) = k ++ '\n' :: lsOutput ks := by simp [lsOutput]
    have ih2 := ih (fun k hk2 => hk k (by simp [hk2]))
    unfold Split at ih2 ⊢
    unfold List.splitOn at ih2 ⊢
    rw [h3, h2, ih2]
    rfl

theorem head_Split (c : Char) (s : Str) :
    (Split s c).headD [] = s.takeWhile (fun x => x != c) := by
  unfold Split List.splitOn
  induction s with
  | nil => rfl
  | cons x xs ih =>
    rw [List.splitOnP_cons]
    by_cases h : x = c
    · simp [h]
    · have h2 : (x == c) = false := by simp [h]
      have h3 : (x != c) = true := by simp [h]
      rw [List.takeWhile_cons, h3]
      simp only [h2, Bool.false_eq_true, if_false, if_true]
      rw [← ih]
      have hne := List.splitOnP_ne_nil (fun x => x == c) xs
      cases hs : List.splitOnP (fun x => x == c) xs with
      | nil => exact absurd hs hne
      | cons a as => simp

theorem Base_entry (k : Str) (h1 : k ≠ []) (h2 : '/' ∉ k) : Base k = k := by
  have e1 : k.rdropWhile (fun c => c == '/') = k := by
    rw [List.rdropWhile_eq_self_iff]
    intro hl e
    have : k.getLast hl = '/' := by simpa using e
    exact h2 (this ▸ List.getLast_mem hl)
  have e2 : k.rtakeWhile (fun c => c != '/') = k := by
    rw [List.rtakeWhile_eq_self_iff]
    intro x hx
    have : x ≠ '/' := fun e => h2 (e ▸ hx)
    simpa using this
  simp [Base, h1, e1, e2]

theorem firstSegGo_line (s : Str) (h : s = [] ∨ IsEntryName s) :
    (Split (Base s) '.').headD [] = firstSeg s := by
  rcases h with h | ⟨h1, _, h3⟩
  · subst h; decide
  · rw [Base_entry s h1 h3, head_Split]; rfl

/-- The result of `wildCardSearch` on a listing: the lines, the empty last
line included, whose part before the first `.` is `N`. -/
theorem wildCardSearch_lines (kids : List Str) (N : Str) (hk : ∀ k ∈ kids, IsEntryName k) :
    wildCardSearch (.ok (lsOutput kids)) N
      = .ok ((kids ++ [[]]).filter (fun k => firstSeg k == N)) := by
  unfold wildCardSearch
  simp only
  rw [Split_lsOutput kids (fun k h => (hk k h).2.1)]
  congr 1
  apply List.filter_congr
  intro s hs
  rw [firstSegGo_line]
  rcases List.mem_append.1 hs with h | h
  · exact Or.inr (hk s h)
  · exact Or.inl (by simpa using h)

/-- C5 (as stated, on the example of the claim): the folder holds
`My_Type.My_Object.md`, whose name without its extension is
`My_Type.My_Object`, and the search for `My_Type.My_Object` finds nothing. -/
theorem wildCardSearch_dotted_name_counterexample :
    wildCardSearch (.ok (lsOutput ["My_Type.My_Object.md".toList])) "My_Type.My_Object".toList
      = .ok [] := by
  rfl

/-- C5 (amended): for a non-empty name `N`, `wildCardSearch` returns exactly
the entries of the folder, in listing order, whose name up to its first `.`
is `N`; the result is non-empty exactly when there is such an entry. -/
theorem wildCardSearch_first_segment (kids : List Str) (N : Str)
    (hk : ∀ k ∈ kids, IsEntryName k) (hN : N ≠ []) :
    wildCardSearch (.ok (lsOutput kids)) N = .ok (kids.filter (fun k => firstSeg k == N)) ∧
    (kids.filter (fun k => firstSeg k == N) ≠ [] ↔ ∃ k ∈ kids, firstSeg k = N) := by
  constructor
  · rw [wildCardSearch_lines kids N hk, List.filter_append]
    have : List.filter (fun k => firstSeg k == N) [[]] = [] := by
      cases N with
      | nil => exact absurd rfl hN
      | cons a N => rfl
    rw [this, List.append_nil]
  · constructor
    · intro h
      obtain ⟨k, hk2⟩ := List.exists_mem_of_ne_nil _ h
      rw [List.mem_filter] at hk2
      exact ⟨k, hk2.1, by simpa using hk2.2⟩
    · rintro ⟨k, hk1, hk2⟩ h
      have : k ∈ kids.filter (fun k => firstSeg k == N) :=
        List.mem_filter.2 ⟨hk1, by simpa using hk2⟩
      rw [h] at this
      simp at this

/-- Witness for C5: the folder of the claim, searched for `My_Type`. -/
theorem wildCardSearch_first_segment_witness :
    (∀ k ∈ ["My_Type.My_Object.md".toList, "Foo.cls".toList], IsEntryName k) ∧
    "My_Type".toList ≠ [] ∧
    wildCardSearch (.ok (lsOutput ["My_Type.My_Object.md".toList, "Foo.cls".toList]))
        "My_Type".toList
      = .ok (["My_Type.My_Object.md".toList, "Foo.cls".toList].filter
          (fun k => firstSeg k == "My_Type".toList)) :=
  have hk : ∀ k ∈ ["My_Type.My_Object.md".toList, "Foo.cls".toList], IsEntryName k := by
    intro k h
    simp only [List.mem_cons, List.mem_singleton, List.not_mem_nil, or_false] at h
    rcases h with h | h <;> subst h <;> exact ⟨by decide, by decide, by decide⟩
  ⟨hk, by decide, (wildCardSearch_first_segment _ _ hk (by decide)).1⟩

theorem lines_length_eq_zero (kids : List Str) (n : Str) :
    ((kids ++ [[]]).filter (fun k => firstSeg k == firstSeg n)).length = 0 ↔
      (firstSeg n != [] && !kids.any (fun k => firstSeg k == firstSeg n)) = true := by
  rw [List.length_eq_zero, List.filter_eq_nil_iff]
  constructor
  · intro h
    have h1 := h [] (by simp)
    have h2 : firstSeg n ≠ [] := by
      intro e
      apply h1
      rw [e]
      rfl
    have h3 : ∀ k ∈ kids, ¬ (firstSeg k == firstSeg n) = true := fun k hk => h k (by simp [hk])
    simp only [Bool.and_eq_true, bne_iff_ne, ne_eq, h2, not_false_eq_true, true_and,
      Bool.not_eq_true', List.any_eq_false]
    exact h3
  · intro h k hk
    simp only [Bool.and_eq_true, bne_iff_ne, ne_eq, Bool.not_eq_true', List.any_eq_false] at h
    rcases List.mem_append.1 hk with hk | hk
    · exact h.2 k hk
    · have : k = [] := by simpa using hk
      subst this
      intro e
      have e2 : firstSeg [] = firstSeg n := by simpa using e
      exact h.1 e2.symm

theorem metadataExistsStep_eq (kids : List Str) (metaFolder : Str)
    (hk : ∀ k ∈ kids, IsEntryName k) (st : Bool × Str) (n : Str) :
    metadataExistsStep metaFolder (.ok (lsOutput kids)) st n
      = .ok (if (firstSeg n != [] && !kids.any (fun k => firstSeg k == firstSeg n)) = true
          then (false, st.2 ++ invalidLine metaFolder n) else st) := by
  unfold metadataExistsStep
  rw [head_Split, wildCardSearch_lines kids _ hk]
  simp only
  have e : List.takeWhile (fun x => x != '.') n = firstSeg n := rfl
  rw [e]
  by_cases h : (firstSeg n != [] && !kids.any (fun k => firstSeg k == firstSeg n)) = true
  · rw [if_pos ((lines_length_eq_zero kids n).2 h), if_pos h]
    simp [invalidLine]
  · rw [if_neg (fun e => h ((lines_length_eq_zero kids n).1 e)), if_neg h]

theorem metadataExists_loop (kids : List Str) (metaFolder : Str)
    (hk : ∀ k ∈ kids, IsEntryName k) : ∀ (names : List Str) (st : Bool × Str),
    names.foldlM (metadataExistsStep metaFolder (.ok (lsOutput kids))) st
      = .ok (st.1 && (missingNames kids names).isEmpty,
          st.2 ++ (missingNames kids names).flatMap (invalidLine metaFolder)) := by
  intro names
  induction names with
  | nil => intro st; simp [missingNames]; rfl
  | cons n ns ih =>
    intro st
    rw [List.foldlM_cons, metadataExistsStep_eq kids metaFolder hk]
    show List.foldlM _ _ ns = _
    rw [ih]
    by_cases h : (firstSeg n != [] && !kids.any (fun k => firstSeg k == firstSeg n)) = true
    · have hm : missingNames kids (n :: ns) = n :: missingNames kids ns := by
        unfold missingNames
        rw [List.filter_cons, if_pos h]
      rw [if_pos h, hm]
      simp
    · have hm : missingNames kids (n :: ns) = missingNames kids ns := by
        unfold missingNames
        rw [List.filter_cons, if_neg h]
      rw [if_neg h, hm]

/-- C4 (as stated): the folder holds only `A.cls`; the requested name `A.b`
has no match there, and `metadataExists` does not abort, because it searches
for `A`, the name up to its first dot. -/
theorem metadataExists_dotted_name_counterexample :
    wildCardSearch (.ok (lsOutput ["A.cls".toList])) "A.b".toList = .ok [] ∧
    metadataExists ["A.b".toList] "/src/classes".toList (.ok (lsOutput ["A.cls".toList]))
      = .ok () := by
  constructor <;> rfl

/-- The outcome of `metadataExists` on a listing, in terms of the names for
which its loop finds an empty search result. -/
theorem metadataExists_loop_result (kids names : List Str) (metaFolder : Str)
    (hk : ∀ k ∈ kids, IsEntryName k) :
    metadataExists names metaFolder (.ok (lsOutput kids))
      = (if missingNames kids names = [] then .ok ()
          else .error ⟨(missingNames kids names).flatMap (invalidLine metaFolder), []⟩) := by
  unfold metadataExists
  by_cases h0 : names.length = 0
  · have : names = [] := List.length_eq_zero.1 h0
    subst this
    rfl
  · rw [if_neg h0, metadataExists_loop kids metaFolder hk]
    simp only [Bool.true_and, List.nil_append]
    by_cases h : missingNames kids names = []
    · simp [h]
    · have h2 : (missingNames kids names).isEmpty = false := by
        cases hm : missingNames kids names with
        | nil => exact absurd hm h
        | cons a l => rfl
      simp [h, h2, ErrorAndExit]

theorem missingNames_eq_unmatchedNames (kids names : List Str)
    (hn : ∀ n ∈ names, firstSeg n ≠ []) :
    missingNames kids names = unmatchedNames kids names := by
  unfold missingNames unmatchedNames
  apply List.filter_congr
  intro n hmem
  have h : (firstSeg n != []) = true := by simpa using hn n hmem
  rw [h, Bool.true_and]

/-- C4 (amended): when every requested name has a non-empty part before its
first `.`, `metadataExists` aborts exactly when some requested name has no
match in the folder, a match being an entry whose name up to its first `.`
is the requested name up to its first `.`; the message is then the `INVALID`
lines of the names without a match, in request order, and nothing else. With
an empty list of names it never aborts, whatever `ls` does. -/
theorem metadataExists_reports_unmatched (kids names : List Str) (metaFolder : Str)
    (hk : ∀ k ∈ kids, IsEntryName k) (hn : ∀ n ∈ names, firstSeg n ≠ []) :
    metadataExists names metaFolder (.ok (lsOutput kids))
      = (if unmatchedNames kids names = [] then .ok ()
          else .error ⟨(unmatchedNames kids names).flatMap (invalidLine metaFolder), []⟩) ∧
    ∀ ls : Except Str Str, metadataExists [] metaFolder ls = .ok () := by
  refine ⟨?_, fun ls => rfl⟩
  rw [metadataExists_loop_result kids names metaFolder hk,
    missingNames_eq_unmatchedNames kids names hn]

/-- Witness for C4: three names against a folder holding `A.cls`. -/
theorem metadataExists_reports_unmatched_witness :
    (∀ k ∈ ["A.cls".toList], IsEntryName k) ∧
    (∀ n ∈ ["A.b".toList, "Z".toList, "Q.x".toList], firstSeg n ≠ []) ∧
    metadataExists ["A.b".toList, "Z".toList, "Q.x".toList] "/src/classes".toList
        (.ok (lsOutput ["A.cls".toList]))
      = .error ⟨invalidLine "/src/classes".toList "Z".toList
          ++ invalidLine "/src/classes".toList "Q.x".toList, []⟩ :=
  have hk : ∀ k ∈ ["A.cls".toList], IsEntryName k := by
    intro k h
    simp only [List.mem_singleton] at h
    subst h
    exact ⟨by decide, by decide, by decide⟩
  have hn : ∀ n ∈ ["A.b".toList, "Z".toList, "Q.x".toList], firstSeg n ≠ [] := by
    intro n h
    simp only [List.mem_cons, List.mem_singleton, List.not_mem_nil, or_false] at h
    rcases h with h | h | h <;> subst h <;> decide
  ⟨hk, hn, (metadataExists_reports_unmatched ["A.cls".toList]
    ["A.b".toList, "Z".toList, "Q.x".toList] "/src/classes".toList hk hn).1.trans (by rfl)⟩

/-! ## Behaviour of the archiver, the locator and the resolver on example trees -/

/-- C3 (code at the failing input): archiving `/s/r`, which holds `x/s/r/c`
and `xc`, gives two entries named `xc`: every occurrence of `/s/r/` is cut
out of the path of a file, not only the leading one. -/
theorem zipResource_entry_names_collide :
    zipResource "/s/r".toList [] nestedRootTree
      = ⟨"/s/r.resource".toList,
          [⟨"xc".toList, "1".toList⟩, ⟨"xc".toList, "2".toList⟩]⟩ := by
  decide

theorem findMetadataTypeFolder_empty_type_dir (dec : XmlDecoder) (root name : Str)
    (kids : List Node) :
    findMetadataTypeFolder dec [] root (.dir name kids) = Dir root := by
  simp [findMetadataTypeFolder, Walk, walk, walkFold, getMDTypeFromXml, ReadFile,
    getFirstXmlElement, dec.eof]

/-- C6 (code at the failing input): for the empty type string and a source
directory `/src` without any file, the locator returns the folder `/`: the
directory `/src` itself, which cannot be read as a file, counts as a
match. -/
theorem findMetadataTypeFolder_empty_type (dec : XmlDecoder) :
    findMetadataTypeFolder dec [] "/src".toList (.dir "src".toList []) = "/".toList := by
  rw [findMetadataTypeFolder_empty_type_dir]
  decide

/-- C8 (code at the failing input): on the folder of the scenario, pushed
with no names, the selection is `Logo.resource`, and two archives are
written: `Widgets.resource` and, before it, `staticresources.resource` with
every file of the type folder. -/
theorem pushByMetadataType_archives_type_folder :
    pushByMetadataType "/w".toList [] "/src/staticresources".toList staticResourcesTree
      = .selection
          ⟨[⟨"/src/staticresources.resource".toList,
              [⟨"Logo.resource".toList, "L".toList⟩, ⟨"Widgets/a.js".toList, "A".toList⟩,
               ⟨"Widgets/b.css".toList, "B".toList⟩]⟩,
            ⟨"/src/staticresources/Widgets.resource".toList,
              [⟨"a.js".toList, "A".toList⟩, ⟨"b.css".toList, "B".toList⟩]⟩],
           [],
           ["/src/staticresources/Logo.resource".toList]⟩ := by
  decide

/-- C9 (code at the failing input): `b.css` cannot be read; the archive
`Widgets.resource` is written all the same, holding only `a.js`, the file
read before, and the push goes on to hand its selection to `pushByPaths`. -/
theorem zipResource_unreadable_file_writes_partial_archive :
    zipResource "/src/staticresources/Widgets".toList [] unreadableWidgets
      = ⟨"/src/staticresources/Widgets.resource".toList, [⟨"a.js".toList, "A".toList⟩]⟩ ∧
    pushByMetadataType "/w".toList ["Widgets".toList] "/src/staticresources".toList
        unreadableTree
      = .selection
          ⟨[⟨"/src/staticresources/Widgets.resource".toList, [⟨"a.js".toList, "A".toList⟩]⟩],
           [],
           ["/src/staticresources/Widgets.resource".toList]⟩ := by
  constructor <;> decide

theorem Clean_ne_nil (path : Str) : Clean path ≠ [] := by
  unfold Clean
  split
  · simp
  · simp only
    split
    · simp
    · split
      · simp
      · assumption

theorem getMDTypeFromXml_eq_iff (dec : XmlDecoder) (mdtype : Str) (h : mdtype ≠ []) (n : Node) :
    getMDTypeFromXml dec n = mdtype ↔
      ∃ name c, n = .file name (some c) ∧ dec.firstStart c = some mdtype := by
  unfold getMDTypeFromXml getFirstXmlElement
  cases n with
  | dir name kids =>
    simp only [ReadFile, Option.getD_none, dec.eof]
    constructor
    · intro e; exact absurd e.symm h
    · rintro ⟨_, _, e, _⟩; cases e
  | file name content =>
    cases content with
    | none =>
      simp only [ReadFile, Option.getD_none, dec.eof]
      constructor
      · intro e; exact absurd e.symm h
      · rintro ⟨_, _, e, _⟩; cases e
    | some c =>
      simp only [ReadFile, Option.getD_some]
      constructor
      · intro e
        cases hd : dec.firstStart c with
        | none => rw [hd] at e; exact absurd e.symm h
        | some x =>
          rw [hd] at e
          have e2 : x = mdtype := e
          exact ⟨name, c, rfl, by rw [hd, e2]⟩
      · rintro ⟨_, c2, e, hd⟩
        cases e
        rw [hd]

/-- For a non-empty type the locator returns a non-empty folder exactly when
some file of the walk can be read and its first start element is the
type. -/
theorem findMetadataTypeFolder_declared (dec : XmlDecoder) (mdtype root : Str) (tree : Node)
    (h : mdtype ≠ []) :
    findMetadataTypeFolder dec mdtype root tree ≠ [] ↔
      ∃ v ∈ walk root tree, ∃ name c, v.2 = .file name (some c) ∧
        dec.firstStart c = some mdtype := by
  unfold findMetadataTypeFolder Walk
  generalize walk root tree = l
  induction l with
  | nil =>
    rw [walkFold]
    constructor
    · intro e; exact absurd rfl e
    · rintro ⟨v, hv, _⟩; cases hv
  | cons v vs ih =>
    rw [walkFold]
    by_cases hv : getMDTypeFromXml dec v.2 = mdtype
    · have hex := (getMDTypeFromXml_eq_iff dec mdtype h v.2).1 hv
      constructor
      · intro _
        exact ⟨v, List.mem_cons_self v vs, hex⟩
      · intro _
        by_cases ha : mdtype = "AuraDefinitionBundle".toList
        · simp only [hv, ha, if_true]
          exact Clean_ne_nil _
        · simp only [hv, ha, if_true, if_false]
          exact Clean_ne_nil _
    · simp only [hv, if_false]
      rw [ih]
      constructor
      · rintro ⟨w, hw, hx⟩
        exact ⟨w, List.mem_cons_of_mem v hw, hx⟩
      · rintro ⟨w, hw, hx⟩
        rcases List.mem_cons.1 hw with hw | hw
        · subst hw
          exact absurd ((getMDTypeFromXml_eq_iff dec mdtype h w.2).2 hx) hv
        · exact ⟨w, hw, hx⟩

/-! ## `path/filepath` on absolute paths -/

theorem intercalate_concat (cs : List Str) (n : Str) (h : cs ≠ []) :
    ['/'].intercalate (cs ++ [n]) = ['/'].intercalate cs ++ '/' :: n := by
  induction cs with
  | nil => exact absurd rfl h
  | cons c cs ih =>
    cases cs with
    | nil => simp [List.intercalate, List.intersperse]
    | cons d ds =>
      have ih2 := ih (by simp)
      have e1 : ∀ l : List Str, ['/'].intercalate (c :: d :: l)
          = c ++ '/' :: ['/'].intercalate (d :: l) := by
        intro l; simp [List.intercalate, List.intersperse]
      rw [List.cons_append, List.cons_append, e1, e1, ← List.cons_append, ih2]
      simp

theorem absPath_concat (cs : List Str) (n : Str) (h : cs ≠ []) :
    absPath (cs ++ [n]) = absPath cs ++ '/' :: n := by
  simp [absPath, intercalate_concat cs n h]

theorem cleanComps_names (rooted : Bool) (cs : List Str) (h : ∀ c ∈ cs, IsName c) :
    ∀ (rest out : List Str),
      cleanComps rooted (cs ++ rest) out = cleanComps rooted rest (cs.reverse ++ out) := by
  induction cs with
  | nil => intro rest out; rfl
  | cons c cs ih =>
    intro rest out
    obtain ⟨h1, _, h3, h4⟩ := h c (by simp)
    rw [List.cons_append, cleanComps.eq_def]
    simp only [h1, h3, h4, or_self, if_false]
    rw [ih (fun c hc => h c (by simp [hc]))]
    simp

theorem splitOn_absPath (cs extra : List Str) (h : cs ≠ []) (hn : ∀ c ∈ cs, IsName c)
    (he : ∀ c ∈ extra, '/' ∉ c) :
    ('/' :: ['/'].intercalate (cs ++ extra)).splitOn '/' = [] :: (cs ++ extra) := by
  have h1 : ∀ l ∈ cs ++ extra, '/' ∉ l := by
    intro l hl
    rcases List.mem_append.1 hl with hl | hl
    · exact (hn l hl).2.1
    · exact he l hl
  have h2 := List.splitOn_intercalate (cs ++ extra) '/' h1 (by simp [h])
  unfold List.splitOn at h2 ⊢
  rw [List.splitOnP_cons]
  simp [h2]

theorem Clean_absPath (cs : List Str) (h : cs ≠ []) (hn : ∀ c ∈ cs, IsName c) :
    Clean (absPath cs) = absPath cs := by
  have h1 := splitOn_absPath cs [] h hn (by simp)
  simp only [List.append_nil] at h1
  have h2 := cleanComps_names true cs hn [] []
  simp only [List.append_nil] at h2
  unfold Clean absPath
  simp only [h1]
  simp [cleanComps, h2]

theorem Clean_absPath_slash (cs : List Str) (h : cs ≠ []) (hn : ∀ c ∈ cs, IsName c) :
    Clean (absPath cs ++ ['/']) = absPath cs := by
  have e : absPath cs ++ ['/'] = '/' :: ['/'].intercalate (cs ++ [[]]) := by
    rw [intercalate_concat cs [] h]; rfl
  have h1 := splitOn_absPath cs [[]] h hn (by simp)
  have h2 := cleanComps_names true cs hn [[]] []
  rw [e]
  unfold Clean absPath
  simp only [h1]
  simp [cleanComps, h2]

theorem Join_absPath (cs : List Str) (n : Str) (h : cs ≠ []) (hn : ∀ c ∈ cs, IsName c)
    (hname : IsName n) : Join (absPath cs) n = absPath cs ++ '/' :: n := by
  have h1 : absPath cs ≠ [] := by simp [absPath]
  unfold Join
  rw [if_pos h1, ← absPath_concat cs n h]
  exact Clean_absPath (cs ++ [n]) (by simp) (by
    intro c hc
    rcases List.mem_append.1 hc with hc | hc
    · exact hn c hc
    · simp at hc; exact hc ▸ hname)

theorem rdropWhile_last_sep (a n : Str) (hn : '/' ∉ n) :
    (a ++ '/' :: n).rdropWhile (fun c => c != '/') = a ++ ['/'] := by
  unfold List.rdropWhile
  have : (a ++ '/' :: n).reverse = n.reverse ++ '/' :: a.reverse := by simp
  rw [this, List.dropWhile_append_of_pos]
  · simp [List.dropWhile]
  · intro c hc
    have : c ≠ '/' := fun e => hn (e ▸ (List.mem_reverse.1 hc))
    simpa using this

theorem Dir_absPath (cs : List Str) (n : Str) (h : cs ≠ []) (hn : ∀ c ∈ cs, IsName c)
    (hname : IsName n) : Dir (absPath cs ++ '/' :: n) = absPath cs := by
  unfold Dir
  rw [rdropWhile_last_sep _ _ hname.2.1]
  exact Clean_absPath_slash cs h hn

theorem Base_after_sep (a n : Str) (hname : IsName n) : Base (a ++ '/' :: n) = n := by
  obtain ⟨h1, h2, _, _⟩ := hname
  have hl : (a ++ '/' :: n) ≠ [] := by simp
  have e1 : (a ++ '/' :: n).rdropWhile (fun c => c == '/') = a ++ '/' :: n := by
    rw [List.rdropWhile_eq_self_iff]
    intro hl2 e
    have e2 : (a ++ '/' :: n).getLast hl2 = n.getLast h1 := by
      simp [List.getLast_append, List.getLast_cons h1, h1]
    have : n.getLast h1 = '/' := by rw [← e2]; simpa using e
    exact h2 (this ▸ List.getLast_mem h1)
  have e2 : (a ++ '/' :: n).rtakeWhile (fun c => c != '/') = n := by
    unfold List.rtakeWhile
    have : (a ++ '/' :: n).reverse = n.reverse ++ '/' :: a.reverse := by simp
    rw [this, List.takeWhile_append_of_pos]
    · simp [List.takeWhile]
    · intro c hc
      have : c ≠ '/' := fun e => h2 (e ▸ (List.mem_reverse.1 hc))
      simpa using this
  unfold Base
  simp only [hl, if_false, e1, e2, h1]

/-! ## The selection of `pushByMetadataType` -/

theorem foldl_archives_files (names : List Str) (fname : Str) (a : Archive) :
    ∀ st : PushState,
      (names.foldl (fun s name =>
        if fname = name then { s with archives := s.archives ++ [a] } else s) st).files
        = st.files := by
  induction names with
  | nil => intro st; rfl
  | cons n ns ih =>
    intro st
    rw [List.foldl_cons, ih]
    split <;> rfl

theorem foldl_files_files (names : List Str) (q : Str → Bool) (path : Str) :
    ∀ st : PushState,
      (names.foldl (fun s name =>
        if q name = true then { s with files := s.files ++ [path] } else s) st).files
        = st.files ++ (names.filter q).map (fun _ => path) := by
  induction names with
  | nil => intro st; simp
  | cons n ns ih =>
    intro st
    rw [List.foldl_cons, ih]
    by_cases h : q n = true
    · simp [h, List.filter_cons]
    · simp [h, List.filter_cons]

theorem pushStep_files (names : List Str) (metaFolder : Str) (st : PushState)
    (v : Str × Node) :
    (pushStep names metaFolder st v).1.files = st.files ++ selected names metaFolder v ∧
    (pushStep names metaFolder st v).2 = false := by
  unfold pushStep selected
  simp only
  split
  · split
    · simp
    · exact ⟨by rw [foldl_archives_files]; simp, rfl⟩
  · split
    · simp
    · split
      · simp
      · exact ⟨by rw [foldl_files_files names
          (fun m => FilenameMatchesMetadataName (Base v.1) m) v.1], rfl⟩

theorem walkFold_pushStep_files (names : List Str) (metaFolder : Str) :
    ∀ (l : List (Str × Node)) (st : PushState),
      (walkFold (pushStep names metaFolder) st l).files
        = st.files ++ l.flatMap (selected names metaFolder) := by
  intro l
  induction l with
  | nil => intro st; simp [walkFold]
  | cons v vs ih =>
    intro st
    obtain ⟨h1, h2⟩ := pushStep_files names metaFolder st v
    rw [walkFold]
    rcases h : pushStep names metaFolder st v with ⟨st1, b⟩
    rw [h] at h1 h2
    simp only at h1 h2
    subst h2
    simp only
    rw [ih, h1]
    simp

theorem selected_dir (names : List Str) (metaFolder path n : Str) (kids : List Node)
    (h1 : n ≠ auraName) (h2 : Base (Dir path) ≠ auraName)
    (h3 : Base (Dir (Dir path)) ≠ auraName) :
    selected names metaFolder (path, .dir n kids) = [] := by
  unfold selected
  simp [Node.IsDir, Node.Name, h1, h2, h3]

theorem selected_file_deep (names : List Str) (metaFolder path n : Str) (c : Option Str)
    (h : Dir path ≠ metaFolder) :
    selected names metaFolder (path, .file n c) = [] := by
  unfold selected
  simp [Node.IsDir, h]

theorem absPath_ne_of_length (cs : List Str) (metaFolder : Str)
    (h : metaFolder.length < (absPath cs).length) : absPath cs ≠ metaFolder := by
  intro e
  rw [e] at h
  exact Nat.lt_irrefl _ h

mutual
/-- Nothing below a directory under the type folder is selected. -/
theorem selected_deep_node (names : List Str) (metaFolder : Str) (cs : List Str)
    (k : Node) (hcs : cs ≠ []) (hn : ∀ c ∈ cs, IsName c) (hname : IsName k.Name)
    (hlen : metaFolder.length < (absPath cs).length)
    (hb : Base (absPath cs) ≠ auraName) (hp : Base (Dir (absPath cs)) ≠ auraName)
    (hdir : k.IsDir = true → k.Name ≠ auraName) (ht : k.Tidy) :
    (walk (absPath cs ++ '/' :: k.Name) k).flatMap (selected names metaFolder) = [] :=
  match k, hname, hdir, ht with
  | .file m c, hname, _, _ => by
    rw [walk]
    simp only [List.flatMap_cons, List.flatMap_nil, List.append_nil]
    apply selected_file_deep
    rw [Dir_absPath cs _ hcs hn hname]
    exact absPath_ne_of_length cs metaFolder hlen
  | .dir m kids, hname, hdir, ht => by
    have hname2 : IsName m := hname
    have hm : m ≠ auraName := hdir rfl
    have hd : Dir (absPath cs ++ '/' :: m) = absPath cs := Dir_absPath cs m hcs hn hname2
    have hbn : Base (absPath cs ++ '/' :: m) = m := Base_after_sep _ m hname2
    have hcat : absPath cs ++ '/' :: m = absPath (cs ++ [m]) := (absPath_concat cs m hcs).symm
    have hnn : ∀ c ∈ cs ++ [m], IsName c := by
      intro c hc
      rcases List.mem_append.1 hc with hc | hc
      · exact hn c hc
      · simp at hc; exact hc ▸ hname2
    have hlen2 : metaFolder.length < (absPath (cs ++ [m])).length := by
      rw [← hcat, List.length_append]
      omega
    have ht2 : TidyKids kids := by rw [Node.Tidy] at ht; exact ht
    show (walk (absPath cs ++ '/' :: m) (.dir m kids)).flatMap (selected names metaFolder) = []
    rw [walk, List.flatMap_cons,
      selected_dir names metaFolder _ m kids hm (by rw [hd]; exact hb) (by rw [hd]; exact hp),
      hcat,
      selected_deep_kids names metaFolder (cs ++ [m]) kids (by simp) hnn hlen2
        (by rw [← hcat, hbn]; exact hm) (by rw [← hcat, hd]; exact hb) ht2]
    rfl
/-- Nothing among the entries of a directory under the type folder, or below
them, is selected. -/
theorem selected_deep_kids (names : List Str) (metaFolder : Str) (cs : List Str)
    (ks : List Node) (hcs : cs ≠ []) (hn : ∀ c ∈ cs, IsName c)
    (hlen : metaFolder.length < (absPath cs).length)
    (hb : Base (absPath cs) ≠ auraName) (hp : Base (Dir (absPath cs)) ≠ auraName)
    (ht : TidyKids ks) :
    (walkKids (absPath cs) ks).flatMap (selected names metaFolder) = [] :=
  match ks, ht with
  | [], _ => by simp [walkKids]
  | k :: ks, ht => by
    rw [TidyKids] at ht
    obtain ⟨h1, h2, h3, h4⟩ := ht
    rw [walkKids, List.flatMap_append, Join_absPath cs k.Name hcs hn h1,
      selected_deep_node names metaFolder cs k hcs hn h1 hlen hb hp h2 h3,
      selected_deep_kids names metaFolder cs ks hcs hn hlen hb hp h4]
    rfl
end

theorem mem_selected_file (names : List Str) (metaFolder path n : Str) (c : Option Str)
    (h1 : Dir path = metaFolder) (h2 : n ≠ auraName) (p : Str) :
    p ∈ selected names metaFolder (path, .file n c) ↔
      p = path ∧ (names = [] ∨ ∃ m ∈ names, FilenameMatchesMetadataName (Base path) m = true) := by
  unfold selected
  simp only [Node.IsDir, Node.Name, Bool.false_eq_true, false_and, if_false, h1, ne_eq,
    not_true_eq_false, h2, or_self]
  by_cases h : names.length = 0
  · have : names = [] := List.length_eq_zero.1 h
    simp [this]
  · have : names ≠ [] := fun e => h (by simp [e])
    simp only [h, if_false, List.mem_map, List.mem_filter, this, false_or]
    constructor
    · rintro ⟨m, ⟨hm1, hm2⟩, rfl⟩
      exact ⟨rfl, m, hm1, hm2⟩
    · rintro ⟨rfl, m, hm1, hm2⟩
      exact ⟨m, ⟨hm1, hm2⟩, rfl⟩

/-- Among the entries of the type folder and everything below them, the
selected paths are the matching files directly inside the folder. -/
theorem selected_top_kids (names cs : List Str) (hcs : cs ≠ []) (hn : ∀ c ∈ cs, IsName c)
    (hb : Base (absPath cs) ≠ auraName) (hp : Base (Dir (absPath cs)) ≠ auraName) :
    ∀ (kids : List Node), TidyKids kids → (∀ n c, Node.file n c ∈ kids → n ≠ auraName) →
    ∀ p : Str, p ∈ (walkKids (absPath cs) kids).flatMap (selected names (absPath cs)) ↔
      ∃ n c, Node.file n c ∈ kids ∧ p = Join (absPath cs) n ∧
        (names = [] ∨ ∃ m ∈ names, FilenameMatchesMetadataName (Base p) m = true) := by
  intro kids
  induction kids with
  | nil => intro _ _ p; simp [walkKids]
  | cons k ks ih =>
    intro ht hfile p
    rw [TidyKids] at ht
    obtain ⟨h1, h2, h3, h4⟩ := ht
    have ih2 := ih h4 (fun n c h => hfile n c (by simp [h])) p
    rw [walkKids, List.flatMap_append, List.mem_append, ih2, Join_absPath cs k.Name hcs hn h1]
    cases k with
    | file n c =>
      have hname : IsName n := h1
      have hd : Dir (absPath cs ++ '/' :: n) = absPath cs := Dir_absPath cs n hcs hn hname
      have hna : n ≠ auraName := hfile n c (by simp)
      have e : (walk (absPath cs ++ '/' :: (Node.file n c).Name) (Node.file n c)).flatMap
          (selected names (absPath cs))
          = selected names (absPath cs) (absPath cs ++ '/' :: n, .file n c) := by
        rw [walk]; simp [Node.Name]
      rw [e, mem_selected_file names _ _ n c hd hna p]
      constructor
      · rintro (⟨rfl, h⟩ | ⟨m, c2, hm, hp2, h⟩)
        · exact ⟨n, c, by simp, (Join_absPath cs n hcs hn hname).symm, h⟩
        · exact ⟨m, c2, by simp [hm], hp2, h⟩
      · rintro ⟨m, c2, hm, hp2, h⟩
        rcases List.mem_cons.1 hm with hm | hm
        · left
          injection hm with hm1 hm2
          subst hm1
          rw [Join_absPath cs m hcs hn hname] at hp2
          subst hp2
          exact ⟨rfl, h⟩
        · exact Or.inr ⟨m, c2, hm, hp2, h⟩
    | dir n sub =>
      have hname : IsName n := h1
      have hna : n ≠ auraName := h2 rfl
      have hd : Dir (absPath cs ++ '/' :: n) = absPath cs := Dir_absPath cs n hcs hn hname
      have hbn : Base (absPath cs ++ '/' :: n) = n := Base_after_sep _ n hname
      have hcat : absPath cs ++ '/' :: n = absPath (cs ++ [n]) := (absPath_concat cs n hcs).symm
      have hnn : ∀ c ∈ cs ++ [n], IsName c := by
        intro c hc
        rcases List.mem_append.1 hc with hc | hc
        · exact hn c hc
        · simp at hc; exact hc ▸ hname
      have hlen : (absPath cs).length < (absPath (cs ++ [n])).length := by
        rw [← hcat, List.length_append]
        simp
      have ht2 : TidyKids sub := by rw [Node.Tidy] at h3; exact h3
      have e : (walk (absPath cs ++ '/' :: (Node.dir n sub).Name) (Node.dir n sub)).flatMap
          (selected names (absPath cs)) = [] := by
        show (walk (absPath cs ++ '/' :: n) (Node.dir n sub)).flatMap _ = []
        rw [walk, List.flatMap_cons,
          selected_dir names _ _ n sub hna (by rw [hd]; exact hb) (by rw [hd]; exact hp),
          hcat,
          selected_deep_kids names (absPath cs) (cs ++ [n]) sub (by simp) hnn hlen
            (by rw [← hcat, hbn]; exact hna) (by rw [← hcat, hd]; exact hb) ht2]
        rfl
      rw [e]
      constructor
      · rintro (h | ⟨m, c2, hm, hp2, h⟩)
        · simp at h
        · exact ⟨m, c2, by simp [hm], hp2, h⟩
      · rintro ⟨m, c2, hm, hp2, h⟩
        rcases List.mem_cons.1 hm with hm | hm
        · cases hm
        · exact Or.inr ⟨m, c2, hm, hp2, h⟩

/-- C7 (as stated): the folder `/src/classes` is no bundle folder and holds
no directory at all, the list of names is empty, and the regular file `aura`
directly inside the folder is not in the list handed to `pushByPaths`. -/
theorem pushByMetadataType_skips_file_named_aura_counterexample :
    Base "/src/classes".toList ≠ auraName ∧
    pushByMetadataType "/w".toList [] "/src/classes".toList
        (.dir "classes".toList
          [.file "Foo.cls".toList (some "x".toList), .file "aura".toList (some "y".toList)])
      = .selection
          ⟨[⟨"/src/classes.resource".toList,
              [⟨"Foo.cls".toList, "x".toList⟩, ⟨"aura".toList, "y".toList⟩]⟩],
           [], ["/src/classes/Foo.cls".toList]⟩ := by
  constructor <;> decide

/-- C7 (amended): let the type folder be an absolute path whose last element,
parent and grandparent are not named `aura`, and let it hold no entry named
`aura` directly inside and no directory named `aura` anywhere below. Then
`pushByMetadataType` reaches `pushByPaths`, and a path is in the list it
hands over exactly when it is a file directly inside the type folder and the
list of names is empty or `FilenameMatchesMetadataName` holds of its base
name and some requested name. -/
theorem pushByMetadataType_selects_direct_files (wd : Str) (names cs : List Str)
    (kids : List Node) (hcs : cs ≠ []) (hn : ∀ c ∈ cs, IsName c)
    (hbase : Base (absPath cs) ≠ auraName)
    (hpar : Base (Dir (absPath cs)) ≠ auraName)
    (hgrand : Base (Dir (Dir (absPath cs))) ≠ auraName)
    (htidy : TidyKids kids) (hfile : ∀ n c, Node.file n c ∈ kids → n ≠ auraName) :
    ∃ st : PushState,
      pushByMetadataType wd names (absPath cs) (.dir (Base (absPath cs)) kids) = .selection st ∧
      ∀ p : Str, p ∈ st.files ↔
        ∃ n c, Node.file n c ∈ kids ∧ p = Join (absPath cs) n ∧
          (names = [] ∨ ∃ m ∈ names, FilenameMatchesMetadataName (Base p) m = true) := by
  refine ⟨_, by unfold pushByMetadataType; rw [if_neg hbase], ?_⟩
  intro p
  unfold Walk
  rw [walkFold_pushStep_files, walk, List.flatMap_cons,
    selected_dir names _ _ _ kids hbase hpar hgrand]
  simp only [List.nil_append]
  exact selected_top_kids names cs hcs hn hbase hpar kids htidy hfile p

/-- Witness for C7: the folder `/src/classes` of the scenario, pushed with
the name `Foo`. -/
theorem pushByMetadataType_selects_direct_files_witness :
    ∃ st : PushState,
      pushByMetadataType "/w".toList ["Foo".toList] (absPath ["src".toList, "classes".toList])
          (.dir (Base (absPath ["src".toList, "classes".toList])) apexClassKids)
        = .selection st ∧
      ∀ p : Str, p ∈ st.files ↔
        ∃ n c, Node.file n c ∈ apexClassKids ∧
          p = Join (absPath ["src".toList, "classes".toList]) n ∧
          (["Foo".toList] = [] ∨
            ∃ m ∈ ["Foo".toList], FilenameMatchesMetadataName (Base p) m = true) :=
  pushByMetadataType_selects_direct_files "/w".toList ["Foo".toList]
    ["src".toList, "classes".toList] apexClassKids (by decide)
    (by
      intro c hc
      simp only [List.mem_cons, List.mem_singleton, List.not_mem_nil, or_false] at hc
      rcases hc with hc | hc <;> subst hc <;> decide)
    (by decide) (by decide) (by decide)
    ⟨by decide, fun h => absurd h (by decide), trivial,
      by decide, fun h => absurd h (by decide), trivial,
      by decide, fun h => absurd h (by decide), trivial, trivial⟩
    (by
      intro n c h
      simp only [apexClassKids, List.mem_cons, Node.file.injEq, List.not_mem_nil, or_false] at h
      rcases h with h | h | h <;> rw [h.1] <;> decide)

/-! ## The notification of `processDeployResults` -/

/-- Without a transport error the flag given to `notifySuccess` is true
exactly when there is no component failure; the test failures are not
read for it. -/
theorem processDeployResults_notified (result : ForceCheckDeploymentStatusResult) :
    ∃ v : Verdict, processDeployResults result none = .ok v ∧
      (v.notified = true ↔ result.Details.ComponentFailures = []) := by
  refine ⟨_, rfl, ?_⟩
  simp [List.length_eq_zero]

/-- C11 (code at the failing input): for a result without component failure
and with one failed test, `processDeployResults` passes `true` to
`notifySuccess` and returns the error `Some tests failed`: the flag is
computed from the component failures alone. -/
theorem processDeployResults_notifies_success_on_failed_test :
    processDeployResults failedTestResult none
      = .ok ⟨true, some "Some tests failed".toList⟩ := by
  rfl

end Push
